import Mathlib

/-!
Verification of the bucket-array engine in `crates/equix/src/bucket_array.rs`.

Modelling conventions (shallow embedding):

* Machine integers are modelled as `Nat`.  The `Key` type has `keyBits` bits,
  the `KeyStorage` type has `storBits` bits, and the `Count` type can represent
  values `0 .. countMax` (for an unsigned integer of `c` bits,
  `countMax = 2 ^ c - 1`).  `usize` is modelled as unbounded (the widths used
  by the crate always fit).
* Rust arithmetic on the generic integer parameters follows release-build
  semantics: `+` and `*` wrap modulo `2 ^ width`, written explicitly as `%`.
* A Rust panic (failed bounds check on array indexing, failed `assert!`,
  failed `expect`, division by zero) is modelled as `Option.none`; normal
  completion returns `some`.
* `MaybeUninit` backing memory is a function `Nat → Nat → Option α`
  (bucket → slot → contents); `none` is an uninitialized slot, so a read of an
  uninitialized slot (undefined behaviour in the source) also surfaces as
  `none` inside the `some` case of a lookup.
* The recoverable `Result<(), ()>` of `insert` is `Except Unit Unit`.
-/

section BucketArray

-- Number of buckets `N`, bucket capacity `CAP`, largest value of the `Count`
-- type, bit width of the `Key` type, bit width of the `KeyStorage` type.
variable (N CAP countMax keyBits storBits : Nat)

/-- `Shape::divisor`: the bucket count as a `Key` value, built by
`K::from_bucket_index(Self::NUM_BUCKETS)`, which panics (`none`) when the
bucket count does not fit in the `keyBits`-bit `Key` type. -/
def Shape.divisor : Option Nat :=
  if N < 2 ^ keyBits then some N else none

/-- `Shape::split_wide_key`: `((key % divisor).into_bucket_index(), key / divisor)`.
Rust `%` and `/` panic on a zero divisor; `into_bucket_index` (conversion of a
value `< N` to `usize`) always succeeds in our unbounded `usize` model. -/
def Shape.split_wide_key (key : Nat) : Option (Nat × Nat) :=
  (Shape.divisor N keyBits).bind fun d =>
    if 0 < d then some (key % d, key / d) else none

/-- `Shape::join_wide_key`: `remainder * divisor + K::from_bucket_index(bucket)`.
`from_bucket_index` panics when `bucket` does not fit the `Key` type; the
multiplication and addition wrap modulo `2 ^ keyBits` (release semantics). -/
def Shape.join_wide_key (bucket remainder : Nat) : Option Nat :=
  (Shape.divisor N keyBits).bind fun d =>
    if bucket < 2 ^ keyBits then some ((remainder * d + bucket) % 2 ^ keyBits)
    else none

/-- `KeyStorage::from_key`: `k & key_mask` narrowed to `KeyStorage`, where
`key_mask = (!Self::zero()).into_key()` is the all-ones pattern of the
`storBits`-bit storage type, zero-extended.  The masked value always fits the
storage type, so the final `try_into` never panics. -/
def KeyStorage.from_key (k : Nat) : Nat :=
  k &&& (2 ^ storBits - 1)

/-- `KeyStorage::into_key`: widen a stored remainder back to the `Key` type
without changing its value (zero-extension).  The trait requires the `Key`
type to be at least as wide as `KeyStorage`, so the conversion succeeds and
is the identity on the represented value. -/
def KeyStorage.into_key (s : Nat) : Nat := s

/-- `Count::from_item_index`: `i.try_into().expect(..)`, panicking (`none`)
when the item index does not fit the `Count` type. -/
def Count.from_item_index (i : Nat) : Option Nat :=
  if i ≤ countMax then some i else none

/-- `BucketArrayImpl::item_range`: the range `0 .. counts[bucket]`, returned
here as its exclusive upper end.  Indexing `counts[bucket]` panics when
`bucket ≥ N`. -/
def BucketArrayImpl.item_range (counts : Nat → Nat) (bucket : Nat) : Option Nat :=
  if bucket < N then some (counts bucket) else none

/-- `BucketArrayImpl::insert`: reads `counts[bucket]` (panics when
`bucket ≥ N`); when the count is below `CAP`, invokes the writer callback with
the pre-increment count, then stores the incremented counter (`Count`
addition wraps at `countMax`, release semantics) and returns `Ok(())`;
otherwise returns `Err(())` without touching anything.  The writer mutates a
memory state of type `μ`. -/
def BucketArrayImpl.insert {μ : Type} (counts : Nat → Nat) (bucket : Nat)
    (writer : Nat → μ → μ) (mem : μ) :
    Option ((Nat → Nat) × μ × Except Unit Unit) :=
  if bucket < N then
    let c := counts bucket
    if c < CAP then
      some (Function.update counts bucket ((c + 1) % (countMax + 1)),
            writer c mem, Except.ok ())
    else
      some (counts, mem, Except.error ())
  else none

/-- State of a `KeyValueBucketArray`: the per-bucket counters of the inner
`BucketArrayImpl`, plus the two `BucketArrayMemory` regions (stored key
remainders and values). -/
structure KVState (V : Type) where
  counts : Nat → Nat
  keyMem : Nat → Nat → Option Nat
  valMem : Nat → Nat → Option V

/-- `KeyValueBucketArray::new`: counters start at zero
(`BucketArrayImpl::new`), both memory regions are considered uninitialized. -/
def KVState.init {V : Type} : KVState V :=
  ⟨fun _ => 0, fun _ _ => none, fun _ _ => none⟩

/-- State of a `ValueBucketArray`: counters plus the value memory region. -/
structure VState (V : Type) where
  counts : Nat → Nat
  valMem : Nat → Nat → Option V

/-- `ValueBucketArray::new`. -/
def VState.init {V : Type} : VState V :=
  ⟨fun _ => 0, fun _ _ => none⟩

/-- `MaybeUninit::write` on one slot of a `BucketArrayMemory`. -/
def writeSlot {α : Type} (mem : Nat → Nat → Option α) (b i : Nat) (x : α) :
    Nat → Nat → Option α :=
  fun b2 i2 => if b2 = b ∧ i2 = i then some x else mem b2 i2

/-- `<KeyValueBucketArray as Insert>::insert`: split the wide key, then let the
core insert run a writer that stores `KS::from_key(key_remainder)` in the key
region and `value` in the value region at the allocated slot. -/
def KeyValueBucketArray.insert {V : Type} (s : KVState V) (key : Nat) (value : V) :
    Option (KVState V × Except Unit Unit) :=
  (Shape.split_wide_key N keyBits key).bind fun br =>
    (BucketArrayImpl.insert N CAP countMax s.counts br.1
        (fun item m =>
          (writeSlot m.1 br.1 item (KeyStorage.from_key storBits br.2),
           writeSlot m.2 br.1 item value))
        (s.keyMem, s.valMem)).bind fun out =>
      some (⟨out.1, out.2.1.1, out.2.1.2⟩, out.2.2)

/-- `<ValueBucketArray as Insert>::insert`: split the wide key, discard the
remainder, store only the value. -/
def ValueBucketArray.insert {V : Type} (s : VState V) (key : Nat) (value : V) :
    Option (VState V × Except Unit Unit) :=
  (Shape.split_wide_key N keyBits key).bind fun br =>
    (BucketArrayImpl.insert N CAP countMax s.counts br.1
        (fun item m => writeSlot m br.1 item value) s.valMem).bind fun out =>
      some (⟨out.1, out.2.1⟩, out.2.2)

/-- `KeyValueBucketArray::drop_key_storage`: keep the counters and the value
memory, release the key memory. -/
def KeyValueBucketArray.drop_key_storage {V : Type} (s : KVState V) : VState V :=
  ⟨s.counts, s.valMem⟩

/-- `<KeyValueBucketArray as Shape>::item_range`. -/
def KeyValueBucketArray.item_range {V : Type} (s : KVState V) (bucket : Nat) :
    Option Nat :=
  BucketArrayImpl.item_range N s.counts bucket

/-- `<ValueBucketArray as Shape>::item_range`. -/
def ValueBucketArray.item_range {V : Type} (s : VState V) (bucket : Nat) :
    Option Nat :=
  BucketArrayImpl.item_range N s.counts bucket

/-- `KeyValueBucketArray::item_stored_key`: asserts
`item_range(bucket).contains(&item)` (the counter lookup itself panics for
`bucket ≥ N`), then reads the key slot.  The outer `none` is the panic; a
`none` read inside the guarded branch is a read of uninitialized memory,
shown unreachable for reachable states. -/
def KeyValueBucketArray.item_stored_key {V : Type} (s : KVState V)
    (bucket item : Nat) : Option Nat :=
  if bucket < N ∧ item < s.counts bucket then s.keyMem bucket item else none

/-- `KeyValueBucketArray::item_full_key`:
`join_wide_key(bucket, item_stored_key(bucket, item).into_key())`. -/
def KeyValueBucketArray.item_full_key {V : Type} (s : KVState V)
    (bucket item : Nat) : Option Nat :=
  (KeyValueBucketArray.item_stored_key N s bucket item).bind fun ks =>
    Shape.join_wide_key N keyBits bucket (KeyStorage.into_key ks)

/-- `<KeyValueBucketArray as ValueLookup>::item_value`: same range assertion,
then reads the value slot. -/
def KeyValueBucketArray.item_value {V : Type} (s : KVState V)
    (bucket item : Nat) : Option V :=
  if bucket < N ∧ item < s.counts bucket then s.valMem bucket item else none

/-- `<ValueBucketArray as ValueLookup>::item_value`. -/
def ValueBucketArray.item_value {V : Type} (s : VState V)
    (bucket item : Nat) : Option V :=
  if bucket < N ∧ item < s.counts bucket then s.valMem bucket item else none

/-- Run a list of `(key, value)` operations through `KeyValueBucketArray::insert`,
threading the state; a panic (`none`) aborts the whole run.  Inserts that fail
with the recoverable bucket-full error leave the state unchanged and the run
continues. -/
def runKV {V : Type} : KVState V → List (Nat × V) → Option (KVState V)
  | s, [] => some s
  | s, (k, v) :: rest =>
    (KeyValueBucketArray.insert N CAP countMax keyBits storBits s k v).bind
      fun out => runKV out.1 rest

/-- The values whose insert succeeded into bucket `b`, in submission order,
when running a list of operations through `KeyValueBucketArray::insert`. -/
def bucketLogKV {V : Type} : KVState V → List (Nat × V) → Nat → List V
  | _, [], _ => []
  | s, (k, v) :: rest, b =>
    match KeyValueBucketArray.insert N CAP countMax keyBits storBits s k v with
    | some (s2, Except.ok _) => (if k % N = b then [v] else []) ++ bucketLogKV s2 rest b
    | some (s2, Except.error _) => bucketLogKV s2 rest b
    | none => []

/-- Same as `runKV` for `ValueBucketArray::insert`. -/
def runV {V : Type} : VState V → List (Nat × V) → Option (VState V)
  | s, [] => some s
  | s, (k, v) :: rest =>
    (ValueBucketArray.insert N CAP countMax keyBits s k v).bind
      fun out => runV out.1 rest

/-- Same as `bucketLogKV` for `ValueBucketArray::insert`. -/
def bucketLogV {V : Type} : VState V → List (Nat × V) → Nat → List V
  | _, [], _ => []
  | s, (k, v) :: rest, b =>
    match ValueBucketArray.insert N CAP countMax keyBits s k v with
    | some (s2, Except.ok _) => (if k % N = b then [v] else []) ++ bucketLogV s2 rest b
    | some (s2, Except.error _) => bucketLogV s2 rest b
    | none => []

/-- States of a `KeyValueBucketArray` reachable from construction by any
sequence of `insert` calls that did not panic. -/
inductive KVReachable {V : Type} : KVState V → Prop where
  | init : KVReachable KVState.init
  | step {s s2 : KVState V} {k : Nat} {v : V} {r : Except Unit Unit} :
      KVReachable s →
      KeyValueBucketArray.insert N CAP countMax keyBits storBits s k v = some (s2, r) →
      KVReachable s2

/-- States of a `ValueBucketArray` reachable from construction by any
sequence of `insert` calls that did not panic. -/
inductive VReachable {V : Type} : VState V → Prop where
  | init : VReachable VState.init
  | step {s s2 : VState V} {k : Nat} {v : V} {r : Except Unit Unit} :
      VReachable s →
      ValueBucketArray.insert N CAP countMax keyBits s k v = some (s2, r) →
      VReachable s2

/-! ### Characterization lemmas -/

lemma split_eq (h1 : 0 < N) (h2 : N < 2 ^ keyBits) (k : Nat) :
    Shape.split_wide_key N keyBits k = some (k % N, k / N) := by
  simp [Shape.split_wide_key, Shape.divisor, h1, h2]

lemma join_eq (h2 : N < 2 ^ keyBits) (b r : Nat) (hb : b < 2 ^ keyBits) :
    Shape.join_wide_key N keyBits b r = some ((r * N + b) % 2 ^ keyBits) := by
  simp [Shape.join_wide_key, Shape.divisor, h2, hb]

lemma from_key_eq_mod (w k : Nat) : KeyStorage.from_key w k = k % 2 ^ w := by
  apply Nat.eq_of_testBit_eq
  intro i
  simp [KeyStorage.from_key, Nat.testBit_land, Nat.testBit_two_pow_sub_one,
    Nat.testBit_mod_two_pow, Bool.and_comm]

lemma core_ok {μ : Type} (counts : Nat → Nat) (bucket : Nat)
    (writer : Nat → μ → μ) (mem : μ) (hb : bucket < N) (hc : counts bucket < CAP) :
    BucketArrayImpl.insert N CAP countMax counts bucket writer mem =
      some (Function.update counts bucket ((counts bucket + 1) % (countMax + 1)),
            writer (counts bucket) mem, Except.ok ()) := by
  simp [BucketArrayImpl.insert, hb, hc]

lemma core_full {μ : Type} (counts : Nat → Nat) (bucket : Nat)
    (writer : Nat → μ → μ) (mem : μ) (hb : bucket < N) (hc : CAP ≤ counts bucket) :
    BucketArrayImpl.insert N CAP countMax counts bucket writer mem =
      some (counts, mem, Except.error ()) := by
  simp [BucketArrayImpl.insert, hb, Nat.not_lt.mpr hc]

lemma kv_insert_ok {V : Type} (h1 : 0 < N) (h2 : N < 2 ^ keyBits)
    (s : KVState V) (k : Nat) (v : V) (hc : s.counts (k % N) < CAP) :
    KeyValueBucketArray.insert N CAP countMax keyBits storBits s k v =
      some (⟨Function.update s.counts (k % N) ((s.counts (k % N) + 1) % (countMax + 1)),
             writeSlot s.keyMem (k % N) (s.counts (k % N))
               (KeyStorage.from_key storBits (k / N)),
             writeSlot s.valMem (k % N) (s.counts (k % N)) v⟩, Except.ok ()) := by
  have hb : k % N < N := Nat.mod_lt _ h1
  simp only [KeyValueBucketArray.insert, split_eq N keyBits h1 h2 k, Option.some_bind]
  simp only [core_ok N CAP countMax _ _ _ _ hb hc, Option.some_bind]

lemma kv_insert_full {V : Type} (h1 : 0 < N) (h2 : N < 2 ^ keyBits)
    (s : KVState V) (k : Nat) (v : V) (hc : CAP ≤ s.counts (k % N)) :
    KeyValueBucketArray.insert N CAP countMax keyBits storBits s k v =
      some (s, Except.error ()) := by
  have hb : k % N < N := Nat.mod_lt _ h1
  simp only [KeyValueBucketArray.insert, split_eq N keyBits h1 h2 k, Option.some_bind]
  simp only [core_full N CAP countMax _ _ _ _ hb hc, Option.some_bind]

lemma v_insert_ok {V : Type} (h1 : 0 < N) (h2 : N < 2 ^ keyBits)
    (s : VState V) (k : Nat) (v : V) (hc : s.counts (k % N) < CAP) :
    ValueBucketArray.insert N CAP countMax keyBits s k v =
      some (⟨Function.update s.counts (k % N) ((s.counts (k % N) + 1) % (countMax + 1)),
             writeSlot s.valMem (k % N) (s.counts (k % N)) v⟩, Except.ok ()) := by
  have hb : k % N < N := Nat.mod_lt _ h1
  simp only [ValueBucketArray.insert, split_eq N keyBits h1 h2 k, Option.some_bind]
  simp only [core_ok N CAP countMax _ _ _ _ hb hc, Option.some_bind]

lemma v_insert_full {V : Type} (h1 : 0 < N) (h2 : N < 2 ^ keyBits)
    (s : VState V) (k : Nat) (v : V) (hc : CAP ≤ s.counts (k % N)) :
    ValueBucketArray.insert N CAP countMax keyBits s k v =
      some (s, Except.error ()) := by
  have hb : k % N < N := Nat.mod_lt _ h1
  simp only [ValueBucketArray.insert, split_eq N keyBits h1 h2 k, Option.some_bind]
  simp only [core_full N CAP countMax _ _ _ _ hb hc, Option.some_bind]

lemma kv_insert_inv {V : Type} {s s2 : KVState V} {k : Nat} {v : V}
    {r : Except Unit Unit}
    (h : KeyValueBucketArray.insert N CAP countMax keyBits storBits s k v =
      some (s2, r)) :
    0 < N ∧ N < 2 ^ keyBits ∧
    ((CAP ≤ s.counts (k % N) ∧ s2 = s ∧ r = Except.error ()) ∨
     (s.counts (k % N) < CAP ∧ r = Except.ok () ∧
      s2 = ⟨Function.update s.counts (k % N) ((s.counts (k % N) + 1) % (countMax + 1)),
            writeSlot s.keyMem (k % N) (s.counts (k % N))
              (KeyStorage.from_key storBits (k / N)),
            writeSlot s.valMem (k % N) (s.counts (k % N)) v⟩)) := by
  by_cases h2 : N < 2 ^ keyBits
  · by_cases h1 : 0 < N
    · refine ⟨h1, h2, ?_⟩
      by_cases hc : s.counts (k % N) < CAP
      · right
        rw [kv_insert_ok N CAP countMax keyBits storBits h1 h2 s k v hc] at h
        obtain ⟨hs, hr⟩ := Prod.mk.injEq .. ▸ Option.some.inj h
        exact ⟨hc, hr.symm, hs.symm⟩
      · left
        rw [kv_insert_full N CAP countMax keyBits storBits h1 h2 s k v
          (Nat.not_lt.mp hc)] at h
        obtain ⟨hs, hr⟩ := Prod.mk.injEq .. ▸ Option.some.inj h
        exact ⟨Nat.not_lt.mp hc, hs.symm, hr.symm⟩
    · exfalso
      have hz : N = 0 := by omega
      simp [KeyValueBucketArray.insert, Shape.split_wide_key, Shape.divisor, h2, hz] at h
  · exfalso
    simp [KeyValueBucketArray.insert, Shape.split_wide_key, Shape.divisor, h2] at h

lemma v_insert_inv {V : Type} {s s2 : VState V} {k : Nat} {v : V}
    {r : Except Unit Unit}
    (h : ValueBucketArray.insert N CAP countMax keyBits s k v = some (s2, r)) :
    0 < N ∧ N < 2 ^ keyBits ∧
    ((CAP ≤ s.counts (k % N) ∧ s2 = s ∧ r = Except.error ()) ∨
     (s.counts (k % N) < CAP ∧ r = Except.ok () ∧
      s2 = ⟨Function.update s.counts (k % N) ((s.counts (k % N) + 1) % (countMax + 1)),
            writeSlot s.valMem (k % N) (s.counts (k % N)) v⟩)) := by
  by_cases h2 : N < 2 ^ keyBits
  · by_cases h1 : 0 < N
    · refine ⟨h1, h2, ?_⟩
      by_cases hc : s.counts (k % N) < CAP
      · right
        rw [v_insert_ok N CAP countMax keyBits h1 h2 s k v hc] at h
        obtain ⟨hs, hr⟩ := Prod.mk.injEq .. ▸ Option.some.inj h
        exact ⟨hc, hr.symm, hs.symm⟩
      · left
        rw [v_insert_full N CAP countMax keyBits h1 h2 s k v (Nat.not_lt.mp hc)] at h
        obtain ⟨hs, hr⟩ := Prod.mk.injEq .. ▸ Option.some.inj h
        exact ⟨Nat.not_lt.mp hc, hs.symm, hr.symm⟩
    · exfalso
      have hz : N = 0 := by omega
      simp [ValueBucketArray.insert, Shape.split_wide_key, Shape.divisor, h2, hz] at h
  · exfalso
    simp [ValueBucketArray.insert, Shape.split_wide_key, Shape.divisor, h2] at h

/-! ### Reachability invariants -/

lemma kv_step_counts_le {V : Type} {s s2 : KVState V} {k : Nat} {v : V}
    {r : Except Unit Unit} (ih : ∀ b, s.counts b ≤ CAP)
    (hins : KeyValueBucketArray.insert N CAP countMax keyBits storBits s k v =
      some (s2, r)) :
    ∀ b, s2.counts b ≤ CAP := by
  obtain ⟨h1, h2, hcase | hcase⟩ := kv_insert_inv N CAP countMax keyBits storBits hins
  · rw [hcase.2.1]; exact ih
  · obtain ⟨hc, -, hs2⟩ := hcase
    subst hs2
    intro b
    by_cases hb : b = k % N
    · subst hb
      simp only [Function.update_same]
      exact le_trans (Nat.mod_le _ _) hc
    · simp only [Function.update_noteq hb]
      exact ih b

lemma v_step_counts_le {V : Type} {s s2 : VState V} {k : Nat} {v : V}
    {r : Except Unit Unit} (ih : ∀ b, s.counts b ≤ CAP)
    (hins : ValueBucketArray.insert N CAP countMax keyBits s k v = some (s2, r)) :
    ∀ b, s2.counts b ≤ CAP := by
  obtain ⟨h1, h2, hcase | hcase⟩ := v_insert_inv N CAP countMax keyBits hins
  · rw [hcase.2.1]; exact ih
  · obtain ⟨hc, -, hs2⟩ := hcase
    subst hs2
    intro b
    by_cases hb : b = k % N
    · subst hb
      simp only [Function.update_same]
      exact le_trans (Nat.mod_le _ _) hc
    · simp only [Function.update_noteq hb]
      exact ih b

lemma kv_counts_le_cap {V : Type} {s : KVState V}
    (hs : KVReachable N CAP countMax keyBits storBits s) : ∀ b, s.counts b ≤ CAP := by
  induction hs with
  | init => intro b; exact Nat.zero_le _
  | step hprev hins ih => exact kv_step_counts_le N CAP countMax keyBits storBits ih hins

lemma v_counts_le_cap {V : Type} {s : VState V}
    (hs : VReachable N CAP countMax keyBits s) : ∀ b, s.counts b ≤ CAP := by
  induction hs with
  | init => intro b; exact Nat.zero_le _
  | step hprev hins ih => exact v_step_counts_le N CAP countMax keyBits ih hins

lemma kv_step_valid {V : Type} {s s2 : KVState V} {k : Nat} {v : V}
    {r : Except Unit Unit}
    (ih : ∀ b i, i < s.counts b → (s.keyMem b i).isSome ∧ (s.valMem b i).isSome)
    (hins : KeyValueBucketArray.insert N CAP countMax keyBits storBits s k v =
      some (s2, r)) :
    ∀ b i, i < s2.counts b → (s2.keyMem b i).isSome ∧ (s2.valMem b i).isSome := by
  obtain ⟨h1, h2, hcase | hcase⟩ := kv_insert_inv N CAP countMax keyBits storBits hins
  · obtain ⟨-, hse, -⟩ := hcase
    subst hse
    exact ih
  · obtain ⟨hc, -, hs2⟩ := hcase
    subst hs2
    intro b i hi
    simp only [writeSlot]
    by_cases hhit : b = k % N ∧ i = s.counts (k % N)
    · simp only [if_pos hhit, Option.isSome_some, and_self]
    · rw [if_neg hhit, if_neg hhit]
      apply ih b i
      by_cases hb : b = k % N
      · subst hb
        simp only [Function.update_same] at hi
        have hne : i ≠ s.counts (k % N) := fun hcon => hhit ⟨rfl, hcon⟩
        have hlt : i < s.counts (k % N) + 1 :=
          lt_of_lt_of_le hi (Nat.mod_le _ _)
        omega
      · simp only [Function.update_noteq hb] at hi
        exact hi

lemma v_step_valid {V : Type} {s s2 : VState V} {k : Nat} {v : V}
    {r : Except Unit Unit}
    (ih : ∀ b i, i < s.counts b → (s.valMem b i).isSome)
    (hins : ValueBucketArray.insert N CAP countMax keyBits s k v = some (s2, r)) :
    ∀ b i, i < s2.counts b → (s2.valMem b i).isSome := by
  obtain ⟨h1, h2, hcase | hcase⟩ := v_insert_inv N CAP countMax keyBits hins
  · obtain ⟨-, hse, -⟩ := hcase
    subst hse
    exact ih
  · obtain ⟨hc, -, hs2⟩ := hcase
    subst hs2
    intro b i hi
    simp only [writeSlot]
    by_cases hhit : b = k % N ∧ i = s.counts (k % N)
    · simp only [if_pos hhit, Option.isSome_some]
    · rw [if_neg hhit]
      apply ih b i
      by_cases hb : b = k % N
      · subst hb
        simp only [Function.update_same] at hi
        have hne : i ≠ s.counts (k % N) := fun hcon => hhit ⟨rfl, hcon⟩
        have hlt : i < s.counts (k % N) + 1 :=
          lt_of_lt_of_le hi (Nat.mod_le _ _)
        omega
      · simp only [Function.update_noteq hb] at hi
        exact hi

lemma kv_valid_slots {V : Type} {s : KVState V}
    (hs : KVReachable N CAP countMax keyBits storBits s) :
    ∀ b i, i < s.counts b → (s.keyMem b i).isSome ∧ (s.valMem b i).isSome := by
  induction hs with
  | init => intro b i hi; exact absurd hi (Nat.not_lt.mpr (Nat.zero_le _))
  | step hprev hins ih => exact kv_step_valid N CAP countMax keyBits storBits ih hins

lemma v_valid_slots {V : Type} {s : VState V}
    (hs : VReachable N CAP countMax keyBits s) :
    ∀ b i, i < s.counts b → (s.valMem b i).isSome := by
  induction hs with
  | init => intro b i hi; exact absurd hi (Nat.not_lt.mpr (Nat.zero_le _))
  | step hprev hins ih => exact v_step_valid N CAP countMax keyBits ih hins

/-! ### Trace lemmas: append order within each bucket -/

lemma bucketLogKV_oob {V : Type} (h1 : 0 < N) :
    ∀ (ops : List (Nat × V)) (s : KVState V) (b : Nat), N ≤ b →
      bucketLogKV N CAP countMax keyBits storBits s ops b = [] := by
  intro ops
  induction ops with
  | nil => intro s b hb; rfl
  | cons hd rest ih =>
    obtain ⟨k, v⟩ := hd
    intro s b hb
    cases hins : KeyValueBucketArray.insert N CAP countMax keyBits storBits s k v with
    | none => simp only [bucketLogKV, hins]
    | some out =>
      obtain ⟨s2, r⟩ := out
      cases r with
      | ok u =>
        have hne : k % N ≠ b := by
          have := Nat.mod_lt k h1
          omega
        simp only [bucketLogKV, hins, if_neg hne, List.nil_append]
        exact ih s2 b hb
      | error u =>
        simp only [bucketLogKV, hins]
        exact ih s2 b hb

lemma bucketLogV_oob {V : Type} (h1 : 0 < N) :
    ∀ (ops : List (Nat × V)) (s : VState V) (b : Nat), N ≤ b →
      bucketLogV N CAP countMax keyBits s ops b = [] := by
  intro ops
  induction ops with
  | nil => intro s b hb; rfl
  | cons hd rest ih =>
    obtain ⟨k, v⟩ := hd
    intro s b hb
    cases hins : ValueBucketArray.insert N CAP countMax keyBits s k v with
    | none => simp only [bucketLogV, hins]
    | some out =>
      obtain ⟨s2, r⟩ := out
      cases r with
      | ok u =>
        have hne : k % N ≠ b := by
          have := Nat.mod_lt k h1
          omega
        simp only [bucketLogV, hins, if_neg hne, List.nil_append]
        exact ih s2 b hb
      | error u =>
        simp only [bucketLogV, hins]
        exact ih s2 b hb

lemma runKV_spec {V : Type} (hcap : CAP ≤ countMax) :
    ∀ (ops : List (Nat × V)) (s t : KVState V),
      runKV N CAP countMax keyBits storBits s ops = some t → ∀ b : Nat,
      t.counts b =
        s.counts b + (bucketLogKV N CAP countMax keyBits storBits s ops b).length ∧
      (∀ i, i < s.counts b → t.valMem b i = s.valMem b i) ∧
      (∀ j, j < (bucketLogKV N CAP countMax keyBits storBits s ops b).length →
        t.valMem b (s.counts b + j) =
          (bucketLogKV N CAP countMax keyBits storBits s ops b)[j]?) := by
  intro ops
  induction ops with
  | nil =>
    intro s t h b
    simp only [runKV, Option.some.injEq] at h
    subst h
    refine ⟨by simp [bucketLogKV], fun i _ => rfl, fun j hj => ?_⟩
    simp [bucketLogKV] at hj
  | cons hd rest ih =>
    obtain ⟨k, v⟩ := hd
    intro s t h b
    simp only [runKV] at h
    cases hins : KeyValueBucketArray.insert N CAP countMax keyBits storBits s k v with
    | none => rw [hins] at h; simp at h
    | some out =>
      rw [hins] at h
      simp only [Option.some_bind] at h
      obtain ⟨s2, r⟩ := out
      obtain ⟨h1, h2, hcase | hcase⟩ := kv_insert_inv N CAP countMax keyBits storBits hins
      · obtain ⟨hc, hse, hre⟩ := hcase
        subst hre
        have hlog : bucketLogKV N CAP countMax keyBits storBits s ((k, v) :: rest) b =
            bucketLogKV N CAP countMax keyBits storBits s2 rest b := by
          simp only [bucketLogKV, hins]
        rw [hse] at hlog h
        rw [hlog]
        exact ih s t h b
      · obtain ⟨hc, hre, hs2⟩ := hcase
        subst hre
        have hlog : bucketLogKV N CAP countMax keyBits storBits s ((k, v) :: rest) b =
            (if k % N = b then [v] else []) ++
              bucketLogKV N CAP countMax keyBits storBits s2 rest b := by
          simp only [bucketLogKV, hins]
        rw [hlog]
        have hcnt : s2.counts = Function.update s.counts (k % N)
            ((s.counts (k % N) + 1) % (countMax + 1)) := by rw [hs2]
        have hvm : s2.valMem = writeSlot s.valMem (k % N) (s.counts (k % N)) v := by
          rw [hs2]
        have hmod : (s.counts (k % N) + 1) % (countMax + 1) = s.counts (k % N) + 1 :=
          Nat.mod_eq_of_lt (by omega)
        obtain ⟨iha, ihb, ihc⟩ := ih s2 t h b
        by_cases hb : k % N = b
        · subst hb
          have hc2 : s2.counts (k % N) = s.counts (k % N) + 1 := by
            rw [hcnt, Function.update_same, hmod]
          rw [if_pos rfl, List.singleton_append]
          refine ⟨?_, ?_, ?_⟩
          · rw [iha, hc2, List.length_cons]
            omega
          · intro i hi
            have hstep : t.valMem (k % N) i = s2.valMem (k % N) i := ihb i (by omega)
            rw [hstep, hvm]
            simp only [writeSlot]
            rw [if_neg (by omega)]
          · intro j hj
            rw [List.length_cons] at hj
            cases j with
            | zero =>
              have h0 : t.valMem (k % N) (s.counts (k % N) + 0) =
                  s2.valMem (k % N) (s.counts (k % N)) := by
                simpa using ihb (s.counts (k % N)) (by omega)
              rw [h0, hvm, List.getElem?_cons_zero]
              simp [writeSlot]
            | succ j2 =>
              have harith : s.counts (k % N) + (j2 + 1) = s2.counts (k % N) + j2 := by
                omega
              rw [harith, List.getElem?_cons_succ]
              exact ihc j2 (by omega)
        · rw [if_neg hb, List.nil_append]
          have hcb : s2.counts b = s.counts b := by
            rw [hcnt, Function.update_noteq (fun hcon => hb hcon.symm)]
          have hvb : ∀ i, s2.valMem b i = s.valMem b i := by
            intro i
            rw [hvm]
            simp only [writeSlot]
            rw [if_neg (fun hcon => hb hcon.1.symm)]
          refine ⟨by rw [iha, hcb], fun i hi => ?_, fun j hj => ?_⟩
          · rw [ihb i (by omega), hvb]
          · rw [show s.counts b + j = s2.counts b + j by rw [hcb]]
            exact ihc j hj

lemma runV_spec {V : Type} (hcap : CAP ≤ countMax) :
    ∀ (ops : List (Nat × V)) (s t : VState V),
      runV N CAP countMax keyBits s ops = some t → ∀ b : Nat,
      t.counts b = s.counts b + (bucketLogV N CAP countMax keyBits s ops b).length ∧
      (∀ i, i < s.counts b → t.valMem b i = s.valMem b i) ∧
      (∀ j, j < (bucketLogV N CAP countMax keyBits s ops b).length →
        t.valMem b (s.counts b + j) =
          (bucketLogV N CAP countMax keyBits s ops b)[j]?) := by
  intro ops
  induction ops with
  | nil =>
    intro s t h b
    simp only [runV, Option.some.injEq] at h
    subst h
    refine ⟨by simp [bucketLogV], fun i _ => rfl, fun j hj => ?_⟩
    simp [bucketLogV] at hj
  | cons hd rest ih =>
    obtain ⟨k, v⟩ := hd
    intro s t h b
    simp only [runV] at h
    cases hins : ValueBucketArray.insert N CAP countMax keyBits s k v with
    | none => rw [hins] at h; simp at h
    | some out =>
      rw [hins] at h
      simp only [Option.some_bind] at h
      obtain ⟨s2, r⟩ := out
      obtain ⟨h1, h2, hcase | hcase⟩ := v_insert_inv N CAP countMax keyBits hins
      · obtain ⟨hc, hse, hre⟩ := hcase
        subst hre
        have hlog : bucketLogV N CAP countMax keyBits s ((k, v) :: rest) b =
            bucketLogV N CAP countMax keyBits s2 rest b := by
          simp only [bucketLogV, hins]
        rw [hse] at hlog h
        rw [hlog]
        exact ih s t h b
      · obtain ⟨hc, hre, hs2⟩ := hcase
        subst hre
        have hlog : bucketLogV N CAP countMax keyBits s ((k, v) :: rest) b =
            (if k % N = b then [v] else []) ++
              bucketLogV N CAP countMax keyBits s2 rest b := by
          simp only [bucketLogV, hins]
        rw [hlog]
        have hcnt : s2.counts = Function.update s.counts (k % N)
            ((s.counts (k % N) + 1) % (countMax + 1)) := by rw [hs2]
        have hvm : s2.valMem = writeSlot s.valMem (k % N) (s.counts (k % N)) v := by
          rw [hs2]
        have hmod : (s.counts (k % N) + 1) % (countMax + 1) = s.counts (k % N) + 1 :=
          Nat.mod_eq_of_lt (by omega)
        obtain ⟨iha, ihb, ihc⟩ := ih s2 t h b
        by_cases hb : k % N = b
        · subst hb
          have hc2 : s2.counts (k % N) = s.counts (k % N) + 1 := by
            rw [hcnt, Function.update_same, hmod]
          rw [if_pos rfl, List.singleton_append]
          refine ⟨?_, ?_, ?_⟩
          · rw [iha, hc2, List.length_cons]
            omega
          · intro i hi
            have hstep : t.valMem (k % N) i = s2.valMem (k % N) i := ihb i (by omega)
            rw [hstep, hvm]
            simp only [writeSlot]
            rw [if_neg (by omega)]
          · intro j hj
            rw [List.length_cons] at hj
            cases j with
            | zero =>
              have h0 : t.valMem (k % N) (s.counts (k % N) + 0) =
                  s2.valMem (k % N) (s.counts (k % N)) := by
                simpa using ihb (s.counts (k % N)) (by omega)
              rw [h0, hvm, List.getElem?_cons_zero]
              simp [writeSlot]
            | succ j2 =>
              have harith : s.counts (k % N) + (j2 + 1) = s2.counts (k % N) + j2 := by
                omega
              rw [harith, List.getElem?_cons_succ]
              exact ihc j2 (by omega)
        · rw [if_neg hb, List.nil_append]
          have hcb : s2.counts b = s.counts b := by
            rw [hcnt, Function.update_noteq (fun hcon => hb hcon.symm)]
          have hvb : ∀ i, s2.valMem b i = s.valMem b i := by
            intro i
            rw [hvm]
            simp only [writeSlot]
            rw [if_neg (fun hcon => hb hcon.1.symm)]
          refine ⟨by rw [iha, hcb], fun i hi => ?_, fun j hj => ?_⟩
          · rw [ihb i (by omega), hvb]
          · rw [show s.counts b + j = s2.counts b + j by rw [hcb]]
            exact ihc j hj

/-! ### Split/join arithmetic -/

lemma join_split (h1 : 0 < N) (h2 : N < 2 ^ keyBits) (k : Nat) (hk : k < 2 ^ keyBits) :
    Shape.join_wide_key N keyBits (k % N) (k / N) = some k := by
  have hb : k % N < N := Nat.mod_lt _ h1
  rw [join_eq N keyBits h2 _ _ (lt_trans hb h2)]
  have hval : k / N * N + k % N = k := by
    rw [Nat.mul_comm]
    exact Nat.div_add_mod k N
  rw [hval, Nat.mod_eq_of_lt hk]

lemma join_masked (h1 : 0 < N) (h2 : N < 2 ^ keyBits) (k : Nat) (hk : k < 2 ^ keyBits) :
    Shape.join_wide_key N keyBits (k % N) (k / N % 2 ^ storBits) =
      some (k / N % 2 ^ storBits * N + k % N) ∧
    (k / N % 2 ^ storBits * N + k % N = k ↔ k / N < 2 ^ storBits) := by
  have hb : k % N < N := Nat.mod_lt _ h1
  have hself : k / N * N + k % N = k := by
    rw [Nat.mul_comm]
    exact Nat.div_add_mod k N
  have hle : k / N % 2 ^ storBits * N + k % N ≤ k := by
    calc k / N % 2 ^ storBits * N + k % N
        ≤ k / N * N + k % N := by
          have := Nat.mod_le (k / N) (2 ^ storBits)
          exact Nat.add_le_add_right (Nat.mul_le_mul_right N this) _
      _ = k := hself
  constructor
  · rw [join_eq N keyBits h2 _ _ (lt_trans hb h2)]
    rw [Nat.mod_eq_of_lt (lt_of_le_of_lt hle hk)]
  · constructor
    · intro heq
      have hmul : k / N % 2 ^ storBits * N = k / N * N := by omega
      have hdiv : k / N % 2 ^ storBits = k / N :=
        Nat.eq_of_mul_eq_mul_right h1 hmul
      rw [← hdiv]
      exact Nat.mod_lt _ (Nat.pos_pow_of_pos storBits (by omega))
    · intro hfit
      rw [Nat.mod_eq_of_lt hfit, hself]

lemma getElem?_some_lt {α : Type} {l : List α} {i : Nat} {v : α}
    (h : l[i]? = some v) : i < l.length := by
  by_contra hlen
  rw [List.getElem?_eq_none (Nat.not_lt.mp hlen)] at h
  exact Option.noConfusion h

/-! ### Claims -/

/-- C1: for every bucket whose counter equals the capacity `CAP`, `insert`
into that bucket returns the recoverable bucket-full failure (`Err(())`) and
performs no mutation: counters, key slots and value slots are unchanged and
the writer callback is never invoked (the memory state is returned untouched
for an arbitrary writer). -/
theorem claim_C1_full_insert_is_noop {V : Type} (h1 : 0 < N) (h2 : N < 2 ^ keyBits) :
    (∀ (μ : Type) (counts : Nat → Nat) (bucket : Nat) (writer : Nat → μ → μ) (mem : μ),
      bucket < N → counts bucket = CAP →
      BucketArrayImpl.insert N CAP countMax counts bucket writer mem =
        some (counts, mem, Except.error ())) ∧
    (∀ (s : KVState V) (k : Nat) (v : V), s.counts (k % N) = CAP →
      KeyValueBucketArray.insert N CAP countMax keyBits storBits s k v =
        some (s, Except.error ())) ∧
    (∀ (s : VState V) (k : Nat) (v : V), s.counts (k % N) = CAP →
      ValueBucketArray.insert N CAP countMax keyBits s k v =
        some (s, Except.error ())) := by
  refine ⟨?_, ?_, ?_⟩
  · intro μ counts bucket writer mem hb hcnt
    exact core_full N CAP countMax counts bucket writer mem hb (le_of_eq hcnt.symm)
  · intro s k v hcnt
    exact kv_insert_full N CAP countMax keyBits storBits h1 h2 s k v (le_of_eq hcnt.symm)
  · intro s k v hcnt
    exact v_insert_full N CAP countMax keyBits h1 h2 s k v (le_of_eq hcnt.symm)

/-- Witness for C1 at `N = 2`, `CAP = 1`: inserting key 0 into a state whose
bucket 0 already holds one item returns the bucket-full error and the
unchanged state. -/
theorem claim_C1_witness :
    KeyValueBucketArray.insert 2 1 255 8 8
      (⟨fun _ => 1, fun _ _ => some 0, fun _ _ => some 0⟩ : KVState Nat) 0 7 =
      some (⟨fun _ => 1, fun _ _ => some 0, fun _ _ => some 0⟩, Except.error ()) :=
  (claim_C1_full_insert_is_noop 2 1 255 8 8 (by decide) (by decide)).2.1
    ⟨fun _ => 1, fun _ _ => some 0, fun _ _ => some 0⟩ 0 7 rfl

/-- C4: for every key representable in the `Key` type and every bucket count
`N ≥ 1` representable in the `Key` type, joining the two components produced
by `split_wide_key` yields exactly the original key, with no wrapping or
truncation. -/
theorem claim_C4_split_join_exact (h1 : 0 < N) (h2 : N < 2 ^ keyBits)
    (k : Nat) (hk : k < 2 ^ keyBits) :
    Shape.split_wide_key N keyBits k = some (k % N, k / N) ∧
    Shape.join_wide_key N keyBits (k % N) (k / N) = some k :=
  ⟨split_eq N keyBits h1 h2 k, join_split N keyBits h1 h2 k hk⟩

/-- Witness for C4 at `N = 5`, 16-bit keys, `k = 12345`. -/
theorem claim_C4_witness :
    Shape.split_wide_key 5 16 12345 = some (0, 2469) ∧
    Shape.join_wide_key 5 16 0 2469 = some 12345 :=
  claim_C4_split_join_exact 5 16 (by decide) (by decide) 12345 (by decide)

/-- C6: `KeyStorage::from_key` reduces the key modulo `2 ^ storBits` (a
bitwise AND with the all-ones mask of that width, i.e. truncation, never
saturation or rounding); `into_key` zero-extends without changing the value;
and the round trip `into_key (from_key k) = k` holds exactly when
`k < 2 ^ storBits`. -/
theorem claim_C6_key_storage_truncation (k : Nat) :
    KeyStorage.from_key storBits k = k % 2 ^ storBits ∧
    KeyStorage.into_key (KeyStorage.from_key storBits k) =
      KeyStorage.from_key storBits k ∧
    (KeyStorage.into_key (KeyStorage.from_key storBits k) = k ↔ k < 2 ^ storBits) := by
  refine ⟨from_key_eq_mod storBits k, rfl, ?_⟩
  simp only [KeyStorage.into_key, from_key_eq_mod]
  exact Nat.mod_eq_iff_lt (Nat.pos_pow_of_pos storBits (by omega)).ne'

/-- C7: `drop_key_storage` preserves everything observable except the key
storage: for every bucket, `item_range` on the resulting `ValueBucketArray`
equals `item_range` on the original `KeyValueBucketArray`, and every
`item_value` lookup agrees as well. -/
theorem claim_C7_downgrade_preserves {V : Type} (s : KVState V) (b i : Nat) :
    ValueBucketArray.item_range N (KeyValueBucketArray.drop_key_storage s) b =
      KeyValueBucketArray.item_range N s b ∧
    ValueBucketArray.item_value N (KeyValueBucketArray.drop_key_storage s) b i =
      KeyValueBucketArray.item_value N s b i :=
  ⟨rfl, rfl⟩

/-- C2: running any interleaved sequence of inserts from a fresh array, the
i-th successfully inserted value whose key maps to bucket `b` is returned by
`item_value(b, i)`, for both array variants; moreover a successful insert
writes its value (and stored key) at the pre-increment count and only then
increments the counter. -/
theorem claim_C2_append_order {V : Type} (h1 : 0 < N) (h2 : N < 2 ^ keyBits)
    (hcap : CAP ≤ countMax) :
    (∀ (ops : List (Nat × V)) (t : KVState V),
      runKV N CAP countMax keyBits storBits KVState.init ops = some t →
      ∀ b i v,
        (bucketLogKV N CAP countMax keyBits storBits KVState.init ops b)[i]? = some v →
        KeyValueBucketArray.item_value N t b i = some v) ∧
    (∀ (ops : List (Nat × V)) (t : VState V),
      runV N CAP countMax keyBits VState.init ops = some t →
      ∀ b i v, (bucketLogV N CAP countMax keyBits VState.init ops b)[i]? = some v →
        ValueBucketArray.item_value N t b i = some v) ∧
    (∀ (s : KVState V) (k : Nat) (v : V), s.counts (k % N) < CAP →
      (KeyValueBucketArray.insert N CAP countMax keyBits storBits s k v).map
          (fun p => (p.1.valMem (k % N) (s.counts (k % N)),
                     p.1.keyMem (k % N) (s.counts (k % N)),
                     p.1.counts (k % N), p.2)) =
        some (some v, some (KeyStorage.from_key storBits (k / N)),
              s.counts (k % N) + 1, Except.ok ())) := by
  refine ⟨?_, ?_, ?_⟩
  · intro ops t hrun b i v hlog
    have hlen := getElem?_some_lt hlog
    have hb : b < N := by
      by_contra hnb
      rw [bucketLogKV_oob N CAP countMax keyBits storBits h1 ops KVState.init b
        (Nat.not_lt.mp hnb)] at hlog
      exact Option.noConfusion hlog
    obtain ⟨hspec1, -, hspec3⟩ :=
      runKV_spec N CAP countMax keyBits storBits hcap ops KVState.init t hrun b
    have hcnt : t.counts b =
        (bucketLogKV N CAP countMax keyBits storBits KVState.init ops b).length := by
      simpa [KVState.init] using hspec1
    have hv : t.valMem b i = some v := by
      have h3 := hspec3 i hlen
      have hz : (KVState.init (V := V)).counts b = 0 := rfl
      rw [hz, Nat.zero_add] at h3
      rw [h3, hlog]
    simp only [KeyValueBucketArray.item_value]
    rw [if_pos ⟨hb, by omega⟩, hv]
  · intro ops t hrun b i v hlog
    have hlen := getElem?_some_lt hlog
    have hb : b < N := by
      by_contra hnb
      rw [bucketLogV_oob N CAP countMax keyBits h1 ops VState.init b
        (Nat.not_lt.mp hnb)] at hlog
      exact Option.noConfusion hlog
    obtain ⟨hspec1, -, hspec3⟩ :=
      runV_spec N CAP countMax keyBits hcap ops VState.init t hrun b
    have hcnt : t.counts b =
        (bucketLogV N CAP countMax keyBits VState.init ops b).length := by
      simpa [VState.init] using hspec1
    have hv : t.valMem b i = some v := by
      have h3 := hspec3 i hlen
      have hz : (VState.init (V := V)).counts b = 0 := rfl
      rw [hz, Nat.zero_add] at h3
      rw [h3, hlog]
    simp only [ValueBucketArray.item_value]
    rw [if_pos ⟨hb, by omega⟩, hv]
  · intro s k v hc
    have hmod : (s.counts (k % N) + 1) % (countMax + 1) = s.counts (k % N) + 1 :=
      Nat.mod_eq_of_lt (by omega)
    rw [kv_insert_ok N CAP countMax keyBits storBits h1 h2 s k v hc]
    simp [writeSlot, Function.update_same, hmod]

/-- Witness for C2: after inserting key 5 (bucket 1) and value 42 into a
fresh two-bucket array, slot 0 of bucket 1 holds the value and the stored
remainder, and the counter is 1. -/
theorem claim_C2_witness :
    (KeyValueBucketArray.insert 2 2 255 8 8 (KVState.init (V := Nat)) 5 42).map
        (fun p => (p.1.valMem 1 0, p.1.keyMem 1 0, p.1.counts 1, p.2)) =
      some (some 42, some 2, 1, Except.ok ()) :=
  (claim_C2_append_order 2 2 255 8 8 (by decide) (by decide) (by decide)).2.2
    KVState.init 5 42 (by decide)

/-- C3: counters never exceed `CAP` in any reachable state of either
variant; every insert leaves each counter no smaller than before; a failed
insert changes nothing; a successful insert increments exactly the target
bucket's counter by one; and once a bucket's counter equals `CAP`, every
further insert into it fails, leaving the state and its `item_range`
(exactly `[0, CAP)`) unchanged. -/
theorem claim_C3_count_invariants {V : Type} (h1 : 0 < N) (h2 : N < 2 ^ keyBits)
    (hcap : CAP ≤ countMax) :
    (∀ s : KVState V, KVReachable N CAP countMax keyBits storBits s →
      ∀ b, s.counts b ≤ CAP) ∧
    (∀ s : VState V, VReachable N CAP countMax keyBits s → ∀ b, s.counts b ≤ CAP) ∧
    (∀ (s s2 : KVState V) (k : Nat) (v : V) (r : Except Unit Unit),
      KeyValueBucketArray.insert N CAP countMax keyBits storBits s k v = some (s2, r) →
      (∀ b, s.counts b ≤ s2.counts b) ∧
      (r = Except.error () → s2 = s) ∧
      (r = Except.ok () → s2.counts (k % N) = s.counts (k % N) + 1 ∧
        ∀ b, b ≠ k % N → s2.counts b = s.counts b)) ∧
    (∀ (s s2 : VState V) (k : Nat) (v : V) (r : Except Unit Unit),
      ValueBucketArray.insert N CAP countMax keyBits s k v = some (s2, r) →
      (∀ b, s.counts b ≤ s2.counts b) ∧
      (r = Except.error () → s2 = s) ∧
      (r = Except.ok () → s2.counts (k % N) = s.counts (k % N) + 1 ∧
        ∀ b, b ≠ k % N → s2.counts b = s.counts b)) ∧
    (∀ (s : KVState V) (k : Nat) (v : V), s.counts (k % N) = CAP →
      KeyValueBucketArray.insert N CAP countMax keyBits storBits s k v =
        some (s, Except.error ()) ∧
      KeyValueBucketArray.item_range N s (k % N) = some CAP) ∧
    (∀ (s : VState V) (k : Nat) (v : V), s.counts (k % N) = CAP →
      ValueBucketArray.insert N CAP countMax keyBits s k v =
        some (s, Except.error ()) ∧
      ValueBucketArray.item_range N s (k % N) = some CAP) := by
  refine ⟨fun s hs => kv_counts_le_cap N CAP countMax keyBits storBits hs,
    fun s hs => v_counts_le_cap N CAP countMax keyBits hs, ?_, ?_, ?_, ?_⟩
  · intro s s2 k v r hins
    obtain ⟨-, -, hcase | hcase⟩ := kv_insert_inv N CAP countMax keyBits storBits hins
    · obtain ⟨hc, hse, hre⟩ := hcase
      subst hse
      subst hre
      exact ⟨fun b => le_refl _, fun _ => rfl, fun hok => Except.noConfusion hok⟩
    · obtain ⟨hc, hre, hs2⟩ := hcase
      subst hre
      have hcnt : s2.counts = Function.update s.counts (k % N)
          ((s.counts (k % N) + 1) % (countMax + 1)) := by rw [hs2]
      have hmod : (s.counts (k % N) + 1) % (countMax + 1) = s.counts (k % N) + 1 :=
        Nat.mod_eq_of_lt (by omega)
      refine ⟨?_, fun herr => Except.noConfusion herr, fun _ => ⟨?_, ?_⟩⟩
      · intro b
        rw [hcnt]
        by_cases hb : b = k % N
        · subst hb
          rw [Function.update_same, hmod]
          omega
        · rw [Function.update_noteq hb]
      · rw [hcnt, Function.update_same, hmod]
      · intro b hb
        rw [hcnt, Function.update_noteq hb]
  · intro s s2 k v r hins
    obtain ⟨-, -, hcase | hcase⟩ := v_insert_inv N CAP countMax keyBits hins
    · obtain ⟨hc, hse, hre⟩ := hcase
      subst hse
      subst hre
      exact ⟨fun b => le_refl _, fun _ => rfl, fun hok => Except.noConfusion hok⟩
    · obtain ⟨hc, hre, hs2⟩ := hcase
      subst hre
      have hcnt : s2.counts = Function.update s.counts (k % N)
          ((s.counts (k % N) + 1) % (countMax + 1)) := by rw [hs2]
      have hmod : (s.counts (k % N) + 1) % (countMax + 1) = s.counts (k % N) + 1 :=
        Nat.mod_eq_of_lt (by omega)
      refine ⟨?_, fun herr => Except.noConfusion herr, fun _ => ⟨?_, ?_⟩⟩
      · intro b
        rw [hcnt]
        by_cases hb : b = k % N
        · subst hb
          rw [Function.update_same, hmod]
          omega
        · rw [Function.update_noteq hb]
      · rw [hcnt, Function.update_same, hmod]
      · intro b hb
        rw [hcnt, Function.update_noteq hb]
  · intro s k v hcnt
    refine ⟨kv_insert_full N CAP countMax keyBits storBits h1 h2 s k v
      (le_of_eq hcnt.symm), ?_⟩
    simp only [KeyValueBucketArray.item_range, BucketArrayImpl.item_range]
    rw [if_pos (Nat.mod_lt k h1), hcnt]
  · intro s k v hcnt
    refine ⟨v_insert_full N CAP countMax keyBits h1 h2 s k v (le_of_eq hcnt.symm), ?_⟩
    simp only [ValueBucketArray.item_range, BucketArrayImpl.item_range]
    rw [if_pos (Nat.mod_lt k h1), hcnt]

/-- Witness for C3: the freshly constructed array is reachable and its
bucket-0 counter respects the capacity bound. -/
theorem claim_C3_witness : (KVState.init (V := Nat)).counts 0 ≤ 2 :=
  (claim_C3_count_invariants 2 2 255 8 8 (by decide) (by decide) (by decide)).1
    KVState.init KVReachable.init 0

/-- C5: `item_full_key` is `join_wide_key` of the bucket and the widened
stored remainder; for a freshly inserted key `k` it returns
`(k / N mod 2 ^ storBits) * N + k mod N`, which equals `k` exactly when the
remainder `k / N` fits in the `storBits`-bit storage type; concretely, with
`N = 4`, `CAP = 2`, 32-bit keys and 8-bit storage, inserting key `0x106`
reconstructs `0x106`, and inserting key `0x12340106` also reconstructs
`0x106`, not the original key. -/
theorem claim_C5_full_key_reconstruction {V : Type} (h1 : 0 < N)
    (h2 : N < 2 ^ keyBits) (hcap : CAP ≤ countMax) :
    (∀ (s : KVState V) (b i : Nat),
      KeyValueBucketArray.item_full_key N keyBits s b i =
        (KeyValueBucketArray.item_stored_key N s b i).bind fun ks =>
          Shape.join_wide_key N keyBits b (KeyStorage.into_key ks)) ∧
    (∀ (s : KVState V) (k : Nat) (v : V), k < 2 ^ keyBits →
      s.counts (k % N) < CAP →
      (KeyValueBucketArray.insert N CAP countMax keyBits storBits s k v).map
          (fun p => KeyValueBucketArray.item_full_key N keyBits p.1 (k % N)
            (s.counts (k % N))) =
        some (some (k / N % 2 ^ storBits * N + k % N)) ∧
      (k / N % 2 ^ storBits * N + k % N = k ↔ k / N < 2 ^ storBits)) ∧
    (((KeyValueBucketArray.insert 4 2 255 32 8 (KVState.init (V := Nat)) 0x106 0).bind
        fun p => KeyValueBucketArray.item_full_key 4 32 p.1 2 0) = some 0x106) ∧
    (((KeyValueBucketArray.insert 4 2 255 32 8
        (KVState.init (V := Nat)) 0x12340106 0).bind
        fun p => KeyValueBucketArray.item_full_key 4 32 p.1 2 0) = some 0x106) ∧
    (0x12340106 ≠ (0x106 : Nat)) := by
  refine ⟨fun s b i => rfl, ?_, by decide, by decide, by decide⟩
  intro s k v hk hc
  have hb : k % N < N := Nat.mod_lt _ h1
  have hmod : (s.counts (k % N) + 1) % (countMax + 1) = s.counts (k % N) + 1 :=
    Nat.mod_eq_of_lt (by omega)
  refine ⟨?_, (join_masked N keyBits storBits h1 h2 k hk).2⟩
  rw [kv_insert_ok N CAP countMax keyBits storBits h1 h2 s k v hc]
  have hfull : KeyValueBucketArray.item_full_key N keyBits
      (⟨Function.update s.counts (k % N) ((s.counts (k % N) + 1) % (countMax + 1)),
        writeSlot s.keyMem (k % N) (s.counts (k % N))
          (KeyStorage.from_key storBits (k / N)),
        writeSlot s.valMem (k % N) (s.counts (k % N)) v⟩ : KVState V) (k % N)
      (s.counts (k % N)) = some (k / N % 2 ^ storBits * N + k % N) := by
    simp only [KeyValueBucketArray.item_full_key, KeyValueBucketArray.item_stored_key]
    rw [if_pos ⟨hb, by rw [Function.update_same, hmod]; omega⟩]
    simp only [writeSlot]
    rw [if_pos ⟨trivial, trivial⟩, Option.some_bind]
    simp only [KeyStorage.into_key]
    rw [from_key_eq_mod]
    exact (join_masked N keyBits storBits h1 h2 k hk).1
  rw [Option.map_some']
  exact congrArg some hfull

/-- Witness for C5: inserting key `0x12340106` into a fresh 4-bucket array
with 8-bit key storage stores a truncated remainder, and `item_full_key`
reconstructs `0x106`; the reconstruction equals the original key iff the
remainder fits in 8 bits (it does not here). -/
theorem claim_C5_witness :
    ((KeyValueBucketArray.insert 4 2 255 32 8
        (KVState.init (V := Nat)) 0x12340106 0).map
        (fun p => KeyValueBucketArray.item_full_key 4 32 p.1 2 0) =
      some (some 0x106)) ∧
    ((0x106 : Nat) = 0x12340106 ↔ (0x48D0041 : Nat) < 2 ^ 8) :=
  (claim_C5_full_key_reconstruction 4 2 255 32 8 (by decide) (by decide)
    (by decide)).2.1 KVState.init 0x12340106 0 (by decide) (by decide)

/-- C8: the lookup operations abort exactly on contract violation: for every
reachable state, `item_stored_key` and `item_value` panic (`none`) whenever
the bucket index is out of range or the item index is at or beyond the
bucket's counter, and return a stored element otherwise; `item_range` panics
exactly when the bucket index is out of range and returns
`[0, counts[bucket])` otherwise. -/
theorem claim_C8_lookup_contract {V : Type} :
    (∀ s : KVState V, KVReachable N CAP countMax keyBits storBits s → ∀ b i,
      (¬(b < N ∧ i < s.counts b) →
        KeyValueBucketArray.item_stored_key N s b i = none ∧
        KeyValueBucketArray.item_value N s b i = none) ∧
      (b < N ∧ i < s.counts b →
        (∃ ks, KeyValueBucketArray.item_stored_key N s b i = some ks) ∧
        (∃ v, KeyValueBucketArray.item_value N s b i = some v))) ∧
    (∀ s : VState V, VReachable N CAP countMax keyBits s → ∀ b i,
      (¬(b < N ∧ i < s.counts b) → ValueBucketArray.item_value N s b i = none) ∧
      (b < N ∧ i < s.counts b → ∃ v, ValueBucketArray.item_value N s b i = some v)) ∧
    (∀ (counts : Nat → Nat) (b : Nat),
      (N ≤ b → BucketArrayImpl.item_range N counts b = none) ∧
      (b < N → BucketArrayImpl.item_range N counts b = some (counts b))) := by
  refine ⟨?_, ?_, ?_⟩
  · intro s hs b i
    constructor
    · intro hout
      simp only [KeyValueBucketArray.item_stored_key, KeyValueBucketArray.item_value]
      rw [if_neg hout, if_neg hout]
      exact ⟨rfl, rfl⟩
    · intro hin
      obtain ⟨hkey, hval⟩ := kv_valid_slots N CAP countMax keyBits storBits hs b i hin.2
      simp only [KeyValueBucketArray.item_stored_key, KeyValueBucketArray.item_value]
      rw [if_pos hin, if_pos hin]
      exact ⟨Option.isSome_iff_exists.mp hkey, Option.isSome_iff_exists.mp hval⟩
  · intro s hs b i
    constructor
    · intro hout
      simp only [ValueBucketArray.item_value]
      rw [if_neg hout]
    · intro hin
      have hval := v_valid_slots N CAP countMax keyBits hs b i hin.2
      simp only [ValueBucketArray.item_value]
      rw [if_pos hin]
      exact Option.isSome_iff_exists.mp hval
  · intro counts b
    constructor
    · intro hout
      simp only [BucketArrayImpl.item_range]
      rw [if_neg (Nat.not_lt.mpr hout)]
    · intro hinb
      simp only [BucketArrayImpl.item_range]
      rw [if_pos hinb]

/-- Witness for C8: on the freshly constructed (reachable) array, looking up
item 0 of bucket 0 violates the range contract (the counter is 0) and both
lookups panic. -/
theorem claim_C8_witness :
    KeyValueBucketArray.item_stored_key 2 (KVState.init (V := Nat)) 0 0 = none ∧
    KeyValueBucketArray.item_value 2 (KVState.init (V := Nat)) 0 0 = none :=
  ((claim_C8_lookup_contract 2 2 255 8 8).1 KVState.init KVReachable.init 0 0).1
    (by decide)

/-- C9 counterexample: with `CAP = 300` and an 8-bit `Count` type
(`countMax = 255`), the capacity is not representable, yet the very first use
of a freshly constructed array does not abort: the first insert returns the
normal success value.  This refutes the claim that the mismatch is detected
fatally at first use. -/
theorem claim_C9_counterexample :
    ¬ (300 : Nat) ≤ 255 ∧
    (KeyValueBucketArray.insert 2 300 255 8 8 (KVState.init (V := Nat)) 0 0).map
        Prod.snd = some (Except.ok ()) :=
  ⟨by decide, rfl⟩

/-- C9 amended: a bucket capacity `CAP` unrepresentable in the `Count` type
is not detected at construction or first use — the first insert on a fresh
array succeeds normally regardless of `countMax`; the fatal conversion
`Count::from_item_index` does panic exactly for indices above `countMax`,
but neither construction nor `insert` invokes it (on overflow the stored
counter instead wraps). -/
theorem claim_C9_amended {V : Type} (h1 : 0 < N) (h2 : N < 2 ^ keyBits)
    (hCAP : 0 < CAP) (k : Nat) (v : V) :
    ((KeyValueBucketArray.insert N CAP countMax keyBits storBits KVState.init k v).map
        Prod.snd = some (Except.ok ())) ∧
    (∀ i, Count.from_item_index countMax i = none ↔ countMax < i) := by
  constructor
  · rw [kv_insert_ok N CAP countMax keyBits storBits h1 h2 KVState.init k v hCAP]
    rfl
  · intro i
    simp only [Count.from_item_index]
    by_cases hle : i ≤ countMax
    · rw [if_pos hle]
      simp
      omega
    · rw [if_neg hle]
      simp
      omega

/-- Witness for C9 amended, at `CAP = 300`, `countMax = 255`:
the first insert succeeds and `from_item_index` rejects index 300. -/
theorem claim_C9_witness :
    ((KeyValueBucketArray.insert 2 300 255 8 8 (KVState.init (V := Nat)) 1 5).map
        Prod.snd = some (Except.ok ())) ∧
    (Count.from_item_index 255 300 = none ↔ 255 < 300) :=
  have h := claim_C9_amended 2 300 255 8 8 (by decide) (by decide) (by decide) 1 (5 : Nat)
  ⟨h.1, h.2 300⟩

/-- C10: for every bucket count `N ≥ 1` representable in the `Key` type, the
bucket index computed by `split_wide_key` is strictly below `N` for every
key, so `insert` on either variant never panics (never reaches the
out-of-range bucket path), and it returns the recoverable bucket-full error
only when the target bucket is already at capacity. -/
theorem claim_C10_bucket_in_range {V : Type} (h1 : 0 < N) (h2 : N < 2 ^ keyBits)
    (k : Nat) :
    (Shape.split_wide_key N keyBits k = some (k % N, k / N) ∧ k % N < N) ∧
    (∀ (s : KVState V) (v : V),
      (KeyValueBucketArray.insert N CAP countMax keyBits storBits s k v).isSome = true ∧
      (∀ s2, KeyValueBucketArray.insert N CAP countMax keyBits storBits s k v =
        some (s2, Except.error ()) → CAP ≤ s.counts (k % N))) ∧
    (∀ (s : VState V) (v : V),
      (ValueBucketArray.insert N CAP countMax keyBits s k v).isSome = true ∧
      (∀ s2, ValueBucketArray.insert N CAP countMax keyBits s k v =
        some (s2, Except.error ()) → CAP ≤ s.counts (k % N))) := by
  refine ⟨⟨split_eq N keyBits h1 h2 k, Nat.mod_lt _ h1⟩, ?_, ?_⟩
  · intro s v
    constructor
    · by_cases hc : s.counts (k % N) < CAP
      · rw [kv_insert_ok N CAP countMax keyBits storBits h1 h2 s k v hc]
        rfl
      · rw [kv_insert_full N CAP countMax keyBits storBits h1 h2 s k v
          (Nat.not_lt.mp hc)]
        rfl
    · intro s2 hins
      obtain ⟨-, -, hcase | hcase⟩ := kv_insert_inv N CAP countMax keyBits storBits hins
      · exact hcase.1
      · exact absurd hcase.2.1 (fun hcon => Except.noConfusion hcon)
  · intro s v
    constructor
    · by_cases hc : s.counts (k % N) < CAP
      · rw [v_insert_ok N CAP countMax keyBits h1 h2 s k v hc]
        rfl
      · rw [v_insert_full N CAP countMax keyBits h1 h2 s k v (Nat.not_lt.mp hc)]
        rfl
    · intro s2 hins
      obtain ⟨-, -, hcase | hcase⟩ := v_insert_inv N CAP countMax keyBits hins
      · exact hcase.1
      · exact absurd hcase.2.1 (fun hcon => Except.noConfusion hcon)

/-- Witness for C10: inserting key 7 into a fresh two-bucket array does not
panic. -/
theorem claim_C10_witness :
    (KeyValueBucketArray.insert 2 1 255 8 8 (KVState.init (V := Nat)) 7 9).isSome =
      true :=
  ((claim_C10_bucket_in_range 2 1 255 8 8 (by decide) (by decide) 7).2.1
    KVState.init 9).1

end BucketArray
